import Mathlib

/-
Verification of the jsonkit JSON Patch application engine.

The engine under study is the JsonPatcher class (packages/tools/src/patcher.ts):
its methods patch and safePatch iterate an ordered list of JSON Patch
operations against a defensive deep copy of the input document, with a
string-append override for add operations whose value is a string.  The
per-operation application and pointer resolution are delegated to the
external fast-json-patch library, whose source is not part of this
repository; those parts are modelled here from the specification
(sections 4.1 and 4.2): a pointer resolver that fails on missing or
type-incompatible segments, and RFC 6902 style per-operation semantics
in which remove and replace fail with PathNotFound on a missing path,
test fails with AssertionFailed on a mismatch, move is remove-then-add,
and copy is resolve-then-add.  MalformedPointer style traversal failures
(a non-numeric segment against an array) are reported through the same
path-not-found channel, since no claim distinguishes them.

JSON documents are modelled as a mutually inductive tree: arrays are
JsonList, objects are JsonFields (ordered association lists, mirroring
the insertion-ordered keys of a JavaScript object).  All definitions are
structurally recursive and kernel-reducible, so concrete runs of the
engine can be settled by decide.
-/

mutual
inductive Json where
  | null
  | bool (b : Bool)
  | num (n : Int)
  | str (s : String)
  | arr (xs : JsonList)
  | obj (fields : JsonFields)
inductive JsonList where
  | nil
  | cons (hd : Json) (tl : JsonList)
inductive JsonFields where
  | nil
  | cons (key : String) (value : Json) (tl : JsonFields)
end

mutual
def Json.beq : Json → Json → Bool
  | .null, .null => true
  | .bool a, .bool b => a = b
  | .num a, .num b => a = b
  | .str a, .str b => a = b
  | .arr a, .arr b => JsonList.beq a b
  | .obj a, .obj b => JsonFields.beq a b
  | _, _ => false
def JsonList.beq : JsonList → JsonList → Bool
  | .nil, .nil => true
  | .cons a as, .cons b bs => Json.beq a b && JsonList.beq as bs
  | _, _ => false
def JsonFields.beq : JsonFields → JsonFields → Bool
  | .nil, .nil => true
  | .cons k v tl, .cons k' v' tl' => k = k' && Json.beq v v' && JsonFields.beq tl tl'
  | _, _ => false
end

mutual
theorem Json.beq_iff : ∀ a b : Json, Json.beq a b = true ↔ a = b
  | .null, b => by cases b <;> simp [Json.beq]
  | .bool x, b => by cases b <;> simp [Json.beq]
  | .num x, b => by cases b <;> simp [Json.beq]
  | .str x, b => by cases b <;> simp [Json.beq]
  | .arr xs, b => by
      cases b <;> simp [Json.beq]
      exact JsonList.beq_iff_list xs _
  | .obj fs, b => by
      cases b <;> simp [Json.beq]
      exact JsonFields.beq_iff_fields fs _
theorem JsonList.beq_iff_list : ∀ a b : JsonList, JsonList.beq a b = true ↔ a = b
  | .nil, b => by cases b <;> simp [JsonList.beq]
  | .cons x xs, b => by
      cases b <;> simp [JsonList.beq]
      exact and_congr (Json.beq_iff x _) (JsonList.beq_iff_list xs _)
theorem JsonFields.beq_iff_fields : ∀ a b : JsonFields, JsonFields.beq a b = true ↔ a = b
  | .nil, b => by cases b <;> simp [JsonFields.beq]
  | .cons k v tl, b => by
      cases b <;> simp [JsonFields.beq]
      rw [and_assoc]
      exact and_congr_right fun _ =>
        and_congr (Json.beq_iff v _) (JsonFields.beq_iff_fields tl _)
end

instance : DecidableEq Json := fun a b => decidable_of_iff _ (Json.beq_iff a b)

instance : DecidableEq JsonList := fun a b => decidable_of_iff _ (JsonList.beq_iff_list a b)

instance : DecidableEq JsonFields := fun a b => decidable_of_iff _ (JsonFields.beq_iff_fields a b)

/-- Convenience conversion used only to write array literals in statements. -/
def JsonList.ofList : List Json → JsonList
  | [] => .nil
  | x :: xs => .cons x (JsonList.ofList xs)

/-- Whether a JSON value is a string, mirroring a typeof check on a value. -/
def Json.isStr : Json → Bool
  | .str _ => true
  | _ => false

/-
Modelled from the spec: the deep structural copy of a document taken by
patch before any operation runs (structuredClone in patcher.ts), described
in the design notes as a structural recursive copy over the closed set of
JSON value shapes.
-/
mutual
/--
Deep copy of a single JSON value, the defensive copy of the design notes.
-/
def structuredClone : Json → Json
  | .null => .null
  | .bool b => .bool b
  | .num n => .num n
  | .str s => .str s
  | .arr xs => .arr (structuredCloneList xs)
  | .obj fs => .obj (structuredCloneFields fs)
def structuredCloneList : JsonList → JsonList
  | .nil => .nil
  | .cons hd tl => .cons (structuredClone hd) (structuredCloneList tl)
def structuredCloneFields : JsonFields → JsonFields
  | .nil => .nil
  | .cons k v tl => .cons k (structuredClone v) (structuredCloneFields tl)
end

mutual
theorem structuredClone_id : ∀ d : Json, structuredClone d = d
  | .null => rfl
  | .bool _ => rfl
  | .num _ => rfl
  | .str _ => rfl
  | .arr xs => congrArg Json.arr (structuredCloneList_id xs)
  | .obj fs => congrArg Json.obj (structuredCloneFields_id fs)
theorem structuredCloneList_id : ∀ xs : JsonList, structuredCloneList xs = xs
  | .nil => rfl
  | .cons hd tl => by
      rw [structuredCloneList, structuredClone_id hd, structuredCloneList_id tl]
theorem structuredCloneFields_id : ∀ fs : JsonFields, structuredCloneFields fs = fs
  | .nil => rfl
  | .cons k v tl => by
      rw [structuredCloneFields, structuredClone_id v, structuredCloneFields_id tl]
end

/-- Splits the character list of a pointer string on slashes. -/
def splitSegsAux : List Char → List Char → List String
  | [], acc => [String.mk acc.reverse]
  | c :: cs, acc =>
      if c = '/' then String.mk acc.reverse :: splitSegsAux cs []
      else splitSegsAux cs (c :: acc)

/--
Modelled from the spec: translation of a slash-delimited JSON Pointer
string into its segment list (section 4.1).  Every pointer begins with a
slash; the root pointer is the single slash and resolves to the whole
document, so it collapses to the empty segment list.
-/
def parsePointer (p : String) : List String :=
  if p = "/" then [] else (splitSegsAux p.data []).drop 1

/-- Numeric value of the digit characters of an array index segment. -/
def segToNatAux : List Char → Nat → Option Nat
  | [], acc => some acc
  | c :: cs, acc =>
      if c.isDigit then segToNatAux cs (acc * 10 + (c.toNat - '0'.toNat)) else none

/--
Modelled from the spec: coercion of a pointer segment to an array index
(section 4.1), defined only for non-empty all-digit segments, hence only
for non-negative integers.
-/
def segToNat (seg : String) : Option Nat :=
  match seg.data with
  | [] => none
  | cs => segToNatAux cs 0

def JsonList.length : JsonList → Nat
  | .nil => 0
  | .cons _ tl => tl.length + 1

/-- Element of an array at an index, or none when the index is out of range. -/
def JsonList.getIdx : JsonList → Nat → Option Json
  | .nil, _ => none
  | .cons hd _, 0 => some hd
  | .cons _ tl, n + 1 => tl.getIdx n

/-- Overwrites the element at an index, leaving an out-of-range list unchanged. -/
def JsonList.setIdx : JsonList → Nat → Json → JsonList
  | .nil, _, _ => .nil
  | .cons _ tl, 0, v => .cons v tl
  | .cons hd tl, n + 1, v => .cons hd (tl.setIdx n v)

/--
Inserts a value at an index, shifting later elements; an index equal to
the length appends, a larger index fails.
-/
def JsonList.insertIdx : JsonList → Nat → Json → Option JsonList
  | xs, 0, v => some (.cons v xs)
  | .nil, _ + 1, _ => none
  | .cons hd tl, n + 1, v => (tl.insertIdx n v).map (.cons hd)

/-- Deletes the element at an index; an out-of-range index fails. -/
def JsonList.removeIdx : JsonList → Nat → Option JsonList
  | .nil, _ => none
  | .cons _ tl, 0 => some tl
  | .cons hd tl, n + 1 => (tl.removeIdx n).map (.cons hd)

/-- Value of the first binding of a key, or none when the key is absent. -/
def JsonFields.lookupKey : JsonFields → String → Option Json
  | .nil, _ => none
  | .cons k v tl, key => if k = key then some v else tl.lookupKey key

/--
Sets a key: an existing binding is overwritten in place, a new key is
appended at the end, mirroring property assignment on a JavaScript object.
-/
def JsonFields.upsert : JsonFields → String → Json → JsonFields
  | .nil, key, v => .cons key v .nil
  | .cons k w tl, key, v =>
      if k = key then .cons k v tl else .cons k w (tl.upsert key v)

/-- Deletes the first binding of a key, leaving other bindings in order. -/
def JsonFields.removeKey : JsonFields → String → JsonFields
  | .nil, _ => .nil
  | .cons k w tl, key => if k = key then tl else .cons k w (tl.removeKey key)

/--
Modelled from the spec: pointer resolution (resolve in section 4.1).
The empty segment list addresses the whole document; an object segment is
a key lookup, an array segment is coerced to a numeric index, and any
missing or type-incompatible segment makes the whole resolution fail.
-/
def resolveSegs : List String → Json → Option Json
  | [], d => some d
  | seg :: rest, .obj fs => (fs.lookupKey seg).bind fun child => resolveSegs rest child
  | seg :: rest, .arr xs =>
      (segToNat seg).bind fun i => (xs.getIdx i).bind fun child => resolveSegs rest child
  | _ :: _, _ => none

/--
Modelled from the spec: the replace operation body (section 4.2),
overwriting the value at a path and failing when the path does not
resolve to an existing location.
-/
def replaceSegs : List String → Json → Json → Option Json
  | [], v, _ => some v
  | seg :: rest, v, .obj fs =>
      match fs.lookupKey seg with
      | some child => (replaceSegs rest v child).map fun c => .obj (fs.upsert seg c)
      | none => none
  | seg :: rest, v, .arr xs =>
      match segToNat seg with
      | some i =>
          match xs.getIdx i with
          | some child => (replaceSegs rest v child).map fun c => .arr (xs.setIdx i c)
          | none => none
      | none => none
  | _ :: _, _, _ => none

/--
Modelled from the spec: the add operation body (section 4.2), requiring
the parent of the target path to exist, setting a key on an object and
inserting with a shift on an array, where an index equal to the length
appends.  Adding at the root replaces the whole document.
-/
def addSegs : List String → Json → Json → Option Json
  | [], v, _ => some v
  | [seg], v, .obj fs => some (.obj (fs.upsert seg v))
  | [seg], v, .arr xs => (segToNat seg).bind fun i => (xs.insertIdx i v).map .arr
  | [_], _, _ => none
  | seg :: rest, v, .obj fs =>
      match fs.lookupKey seg with
      | some child => (addSegs rest v child).map fun c => .obj (fs.upsert seg c)
      | none => none
  | seg :: rest, v, .arr xs =>
      match segToNat seg with
      | some i =>
          match xs.getIdx i with
          | some child => (addSegs rest v child).map fun c => .arr (xs.setIdx i c)
          | none => none
      | none => none
  | _ :: _, _, _ => none

/--
Modelled from the spec: the remove operation body (section 4.2), deleting
the key or index at a path and failing with a path-not-found condition
when it does not exist.  The root itself cannot be removed.
-/
def removeSegs : List String → Json → Option Json
  | [], _ => none
  | [seg], .obj fs =>
      match fs.lookupKey seg with
      | some _ => some (.obj (fs.removeKey seg))
      | none => none
  | [seg], .arr xs => (segToNat seg).bind fun i => (xs.removeIdx i).map .arr
  | [_], _ => none
  | seg :: rest, .obj fs =>
      match fs.lookupKey seg with
      | some child => (removeSegs rest child).map fun c => .obj (fs.upsert seg c)
      | none => none
  | seg :: rest, .arr xs =>
      match segToNat seg with
      | some i =>
          match xs.getIdx i with
          | some child => (removeSegs rest child).map fun c => .arr (xs.setIdx i c)
          | none => none
      | none => none
  | _ :: _, _ => none

/--
The discriminated union of patch operations, mirroring JsonPatchOperation
in packages/tools/src/types.ts: six RFC 6902 operations plus the
non-standard read-only Get tag.
-/
inductive JsonPatchOperation where
  | add (path : String) (value : Json)
  | remove (path : String)
  | replace (path : String) (value : Json)
  | move (fromPath : String) (path : String)
  | copy (fromPath : String) (path : String)
  | test (path : String) (value : Json)
  | get (path : String) (value : Json)

/--
Failure taxonomy of the engine (section 7): a pointer that does not
resolve to a location required by an operation, and a test mismatch.
Malformed-pointer traversal failures are reported as pathNotFound here,
since the claims under study never distinguish them.
-/
inductive JsonPatchError where
  | pathNotFound
  | assertionFailed
deriving DecidableEq

/--
Modelled from the spec: the pointer lookup the wrapper uses for the
string-append check (getValueByPointer of fast-json-patch).  A path that
does not resolve yields none, the absent or undefined case of the spec.
-/
def getValueByPointer (d : Json) (p : String) : Option Json :=
  resolveSegs (parsePointer p) d

/--
Modelled from the spec: application of a single operation to the working
document (applyPatch of fast-json-patch on a one-element list), with the
per-operation semantics of section 4.2: add, remove and replace as the
segment-level bodies above; move as remove-then-add of the value at the
source; copy as add of the value at the source; test failing with
AssertionFailed on a deep-equality mismatch; and the read-only Get tag
resolving its path and leaving the document unchanged.
-/
def applyOperation (d : Json) (op : JsonPatchOperation) : Except JsonPatchError Json :=
  match op with
  | .add p v =>
      match addSegs (parsePointer p) v d with
      | some d' => .ok d'
      | none => .error .pathNotFound
  | .remove p =>
      match removeSegs (parsePointer p) d with
      | some d' => .ok d'
      | none => .error .pathNotFound
  | .replace p v =>
      match replaceSegs (parsePointer p) v d with
      | some d' => .ok d'
      | none => .error .pathNotFound
  | .move f p =>
      match resolveSegs (parsePointer f) d with
      | some v =>
          match removeSegs (parsePointer f) d with
          | some d' =>
              match addSegs (parsePointer p) v d' with
              | some d'' => .ok d''
              | none => .error .pathNotFound
          | none => .error .pathNotFound
      | none => .error .pathNotFound
  | .copy f p =>
      match resolveSegs (parsePointer f) d with
      | some v =>
          match addSegs (parsePointer p) v d with
          | some d' => .ok d'
          | none => .error .pathNotFound
      | none => .error .pathNotFound
  | .test p v =>
      match resolveSegs (parsePointer p) d with
      | some w => if w = v then .ok d else .error .assertionFailed
      | none => .error .pathNotFound
  | .get p _ =>
      match resolveSegs (parsePointer p) d with
      | some _ => .ok d
      | none => .error .pathNotFound

/--
One iteration of the loop body of JsonPatcher.patch: an add operation
whose value is a string reads the currently-addressed value, concatenates
when that value is also a string, and issues a replace with the resulting
value; every other operation is forwarded unchanged to the generic
single-operation application.
-/
def patchStep (target : Json) (operation : JsonPatchOperation) : Except JsonPatchError Json :=
  match operation with
  | .add p (.str v) =>
      let targetValue := getValueByPointer target p
      let patchValue : Json :=
        match targetValue with
        | some (.str s) => .str (s ++ v)
        | _ => .str v
      applyOperation target (.replace p patchValue)
  | _ => applyOperation target operation

/--
The operation loop of JsonPatcher.patch: operations apply strictly
sequentially against the working document, and the first failure aborts
the whole call.
-/
def patchLoop : Json → List JsonPatchOperation → Except JsonPatchError Json
  | target, [] => .ok target
  | target, operation :: rest =>
      match patchStep target operation with
      | .ok next => patchLoop next rest
      | .error e => .error e

/--
JsonPatcher.patch: clones the input document and runs the operation loop
on the clone, so the caller-supplied document is never touched.
-/
def patch (object : Json) (patches : List JsonPatchOperation) : Except JsonPatchError Json :=
  patchLoop (structuredClone object) patches

/-- The result shape of safePatch, mirroring PatchResult in types.ts. -/
inductive PatchResult where
  | success (data : Json)
  | failure (error : JsonPatchError)
deriving DecidableEq

/--
JsonPatcher.safePatch: runs patch and captures any failure as a
structured result instead of letting it propagate.
-/
def safePatch (target : Json) (patches : List JsonPatchOperation) : PatchResult :=
  match patch target patches with
  | .ok data => .success data
  | .error e => .failure e

example :
    safePatch (.obj (.cons "text" (.str "a") .nil))
      [.add "/text" (.str "b"), .add "/text" (.str "c"), .add "/text" (.str "de")] =
    .success (.obj (.cons "text" (.str "abcde") .nil)) := by decide

example :
    safePatch (.obj (.cons "name" (.str "John") .nil)) [.remove "/missing"] =
    .failure .pathNotFound := by decide

example :
    safePatch (.obj (.cons "name" (.str "John") .nil)) [.test "/name" (.str "Jane")] =
    .failure .assertionFailed := by decide

theorem patch_eq_patchLoop (d : Json) (P : List JsonPatchOperation) :
    patch d P = patchLoop d P := by
  rw [patch, structuredClone_id]

theorem JsonFields.lookupKey_upsert_self :
    ∀ (fs : JsonFields) (key : String) (v : Json),
      (fs.upsert key v).lookupKey key = some v
  | .nil, key, v => by simp [JsonFields.upsert, JsonFields.lookupKey]
  | .cons k w tl, key, v => by
      by_cases h : k = key
      · simp [JsonFields.upsert, h, JsonFields.lookupKey]
      · simp [JsonFields.upsert, h, JsonFields.lookupKey,
          JsonFields.lookupKey_upsert_self tl key v]

theorem JsonFields.lookupKey_upsert_other :
    ∀ (fs : JsonFields) (k key : String) (v : Json), k ≠ key →
      (fs.upsert key v).lookupKey k = fs.lookupKey k
  | .nil, k, key, v, hne => by
      simp [JsonFields.upsert, JsonFields.lookupKey, Ne.symm hne]
  | .cons k0 w tl, k, key, v, hne => by
      by_cases h : k0 = key
      · subst h
        simp [JsonFields.upsert, JsonFields.lookupKey, Ne.symm hne]
      · simp only [JsonFields.upsert, if_neg h, JsonFields.lookupKey]
        by_cases h0 : k0 = k
        · simp [h0]
        · simp [h0, JsonFields.lookupKey_upsert_other tl k key v hne]

theorem JsonFields.removeKey_upsert_comm :
    ∀ (fs : JsonFields) (kf kt : String) (v : Json), kf ≠ kt →
      (fs.upsert kt v).removeKey kf = (fs.removeKey kf).upsert kt v
  | .nil, kf, kt, v, hne => by
      simp [JsonFields.upsert, JsonFields.removeKey, Ne.symm hne]
  | .cons k w tl, kf, kt, v, hne => by
      by_cases h1 : k = kt
      · subst h1
        simp [JsonFields.upsert, JsonFields.removeKey, Ne.symm hne]
      · by_cases h2 : k = kf
        · subst h2
          simp [JsonFields.upsert, JsonFields.removeKey, h1]
        · simp [JsonFields.upsert, JsonFields.removeKey, h1, h2,
            JsonFields.removeKey_upsert_comm tl kf kt v hne]

theorem JsonList.getIdx_setIdx_self :
    ∀ (xs : JsonList) (i : Nat) (w c : Json), xs.getIdx i = some w →
      (xs.setIdx i c).getIdx i = some c
  | .nil, i, _, _, h => by cases i <;> simp [JsonList.getIdx] at h
  | .cons hd tl, 0, _, _, _ => rfl
  | .cons hd tl, n + 1, w, c, h => JsonList.getIdx_setIdx_self tl n w c h

theorem JsonList.removeIdx_none :
    ∀ (xs : JsonList) (i : Nat), xs.getIdx i = none → xs.removeIdx i = none
  | .nil, _, _ => rfl
  | .cons hd tl, 0, h => by simp [JsonList.getIdx] at h
  | .cons hd tl, n + 1, h => by
      have hrec := JsonList.removeIdx_none tl n (by simpa [JsonList.getIdx] using h)
      simp [JsonList.removeIdx, hrec]

theorem replaceSegs_of_resolve :
    ∀ (segs : List String) (d w v : Json), resolveSegs segs d = some w →
      ∃ d', replaceSegs segs v d = some d' ∧ resolveSegs segs d' = some v
  | [], d, w, v, _ => ⟨v, rfl, rfl⟩
  | seg :: rest, d, w, v, h => by
      cases d with
      | obj fs =>
          simp only [resolveSegs, Option.bind_eq_some] at h
          obtain ⟨child, hlk, hres⟩ := h
          obtain ⟨child', hrep, hres'⟩ := replaceSegs_of_resolve rest child w v hres
          refine ⟨.obj (fs.upsert seg child'), ?_, ?_⟩
          · simp [replaceSegs, hlk, hrep]
          · simp [resolveSegs, JsonFields.lookupKey_upsert_self, hres']
      | arr xs =>
          simp only [resolveSegs, Option.bind_eq_some] at h
          obtain ⟨i, hi, child, hget, hres⟩ := h
          obtain ⟨child', hrep, hres'⟩ := replaceSegs_of_resolve rest child w v hres
          refine ⟨.arr (xs.setIdx i child'), ?_, ?_⟩
          · simp [replaceSegs, hi, hget, hrep]
          · simp [resolveSegs, hi, JsonList.getIdx_setIdx_self xs i child child' hget, hres']
      | null => simp [resolveSegs] at h
      | bool b => simp [resolveSegs] at h
      | num n => simp [resolveSegs] at h
      | str s => simp [resolveSegs] at h

theorem replaceSegs_of_resolve_none :
    ∀ (segs : List String) (d v : Json), resolveSegs segs d = none →
      replaceSegs segs v d = none
  | [], d, v, h => by simp [resolveSegs] at h
  | seg :: rest, d, v, h => by
      cases d with
      | obj fs =>
          cases hlk : fs.lookupKey seg with
          | none => simp [replaceSegs, hlk]
          | some child =>
              simp only [resolveSegs, hlk, Option.some_bind] at h
              simp [replaceSegs, hlk, replaceSegs_of_resolve_none rest child v h]
      | arr xs =>
          cases hi : segToNat seg with
          | none => simp [replaceSegs, hi]
          | some i =>
              cases hget : xs.getIdx i with
              | none => simp [replaceSegs, hi, hget]
              | some child =>
                  simp only [resolveSegs, hi, hget, Option.some_bind] at h
                  simp [replaceSegs, hi, hget, replaceSegs_of_resolve_none rest child v h]
      | null => rfl
      | bool b => rfl
      | num n => rfl
      | str s => rfl

theorem removeSegs_of_resolve_none :
    ∀ (segs : List String) (d : Json), resolveSegs segs d = none →
      removeSegs segs d = none
  | [], d, h => by simp [resolveSegs] at h
  | [seg], d, h => by
      cases d with
      | obj fs =>
          cases hlk : fs.lookupKey seg with
          | none => simp [removeSegs, hlk]
          | some child => simp [resolveSegs, hlk] at h
      | arr xs =>
          cases hi : segToNat seg with
          | none => simp [removeSegs, hi]
          | some i =>
              cases hget : xs.getIdx i with
              | none => simp [removeSegs, hi, JsonList.removeIdx_none xs i hget]
              | some child => simp [resolveSegs, hi, hget] at h
      | null => rfl
      | bool b => rfl
      | num n => rfl
      | str s => rfl
  | seg :: s2 :: rest, d, h => by
      cases d with
      | obj fs =>
          cases hlk : fs.lookupKey seg with
          | none => simp [removeSegs, hlk]
          | some child =>
              simp only [resolveSegs, hlk, Option.some_bind] at h
              simp [removeSegs, hlk, removeSegs_of_resolve_none (s2 :: rest) child h]
      | arr xs =>
          cases hi : segToNat seg with
          | none => simp [removeSegs, hi]
          | some i =>
              cases hget : xs.getIdx i with
              | none => simp [removeSegs, hi, hget]
              | some child =>
                  simp only [resolveSegs, hi, hget, Option.some_bind] at h
                  simp [removeSegs, hi, hget, removeSegs_of_resolve_none (s2 :: rest) child h]
      | null => rfl
      | bool b => rfl
      | num n => rfl
      | str s => rfl

theorem addSegs_deep :
    ∀ (segs : List String) (d child : Json) (r0 : String) (rs : List String) (v : Json),
      resolveSegs segs d = some child →
      addSegs (segs ++ r0 :: rs) v d =
        (addSegs (r0 :: rs) v child).bind fun c' => replaceSegs segs c' d
  | [], d, child, r0, rs, v, h => by
      simp only [resolveSegs, Option.some.injEq] at h
      subst h
      cases haddX : addSegs (r0 :: rs) v d <;> simp [haddX, replaceSegs]
  | s0 :: srest, d, child, r0, rs, v, h => by
      cases d with
      | obj fs =>
          simp only [resolveSegs, Option.bind_eq_some] at h
          obtain ⟨c0, hlk, hres⟩ := h
          obtain ⟨a, as, ha⟩ : ∃ a as, srest ++ r0 :: rs = a :: as := by
            cases srest <;> exact ⟨_, _, rfl⟩
          have ih := addSegs_deep srest c0 child r0 rs v hres
          rw [ha] at ih
          simp only [List.cons_append, ha, addSegs, hlk, ih]
          cases haddX : addSegs (r0 :: rs) v child <;> simp [replaceSegs, hlk]
      | arr xs =>
          simp only [resolveSegs, Option.bind_eq_some] at h
          obtain ⟨i, hi, c0, hget, hres⟩ := h
          obtain ⟨a, as, ha⟩ : ∃ a as, srest ++ r0 :: rs = a :: as := by
            cases srest <;> exact ⟨_, _, rfl⟩
          have ih := addSegs_deep srest c0 child r0 rs v hres
          rw [ha] at ih
          simp only [List.cons_append, ha, addSegs, hi, hget, ih]
          cases haddX : addSegs (r0 :: rs) v child <;> simp [replaceSegs, hi, hget]
      | null => simp [resolveSegs] at h
      | bool b => simp [resolveSegs] at h
      | num n => simp [resolveSegs] at h
      | str s => simp [resolveSegs] at h

/--
C2: the engine never mutates its input.  The call patch D P (and hence
safePatch D P) runs the operation loop only on the defensive deep copy
structuredClone D, taken before any operation runs, and that copy is
deeply equal to D; whether the call succeeds or fails, the caller-owned
document stays deeply equal to its pre-call value.
-/
theorem patcher_input_never_mutated (D : Json) (P : List JsonPatchOperation) :
    patch D P = patchLoop (structuredClone D) P ∧ structuredClone D = D :=
  ⟨rfl, structuredClone_id D⟩

/--
C3: the safe entry point never throws.  For every document and operation
list, safePatch returns a discriminated result: success with the patched
document when the underlying patch succeeds, and failure with the
captured error whenever patch fails.
-/
theorem safePatch_total_discriminated (D : Json) (P : List JsonPatchOperation) :
    (∃ d, patch D P = .ok d ∧ safePatch D P = .success d) ∨
    (∃ e, patch D P = .error e ∧ safePatch D P = .failure e) := by
  cases h : patch D P with
  | ok d => exact Or.inl ⟨d, rfl, by simp [safePatch, h]⟩
  | error e => exact Or.inr ⟨e, rfl, by simp [safePatch, h]⟩

/--
C9: empty-list identity.  Applying the empty operation list succeeds and
returns a document structurally equal to the input (the fresh defensive
clone, which in this value-level model is the deep-equality class of the
input itself; reference identity has no counterpart here).
-/
theorem patch_empty_identity (D : Json) :
    patch D [] = .ok D ∧ safePatch D [] = .success D := by
  have h : patch D [] = .ok D := by rw [patch_eq_patchLoop]; rfl
  exact ⟨h, by simp [safePatch, h]⟩

/--
C5: failure on missing paths.  When the path of a remove or replace
operation does not resolve in the document, the call fails with
PathNotFound and safePatch reports the structured failure (the input
itself is untouched, as the engine only ever works on its clone).
-/
theorem remove_replace_missing_path_fail (D : Json) (p : String) (v : Json)
    (h : getValueByPointer D p = none) :
    safePatch D [.remove p] = .failure .pathNotFound ∧
    safePatch D [.replace p v] = .failure .pathNotFound := by
  have hres : resolveSegs (parsePointer p) D = none := h
  constructor
  · have hrm := removeSegs_of_resolve_none (parsePointer p) D hres
    simp [safePatch, patch_eq_patchLoop, patchLoop, patchStep, applyOperation, hrm]
  · have hrp := replaceSegs_of_resolve_none (parsePointer p) D v hres
    simp [safePatch, patch_eq_patchLoop, patchLoop, patchStep, applyOperation, hrp]

/--
Witness for C5 at the documents of the spec example: on the document
with the single key name, removing or replacing the missing path fails
with PathNotFound.
-/
theorem remove_replace_missing_path_fail_witness :
    safePatch (.obj (.cons "name" (.str "John") .nil)) [.remove "/missing"] =
      .failure .pathNotFound ∧
    safePatch (.obj (.cons "name" (.str "John") .nil)) [.replace "/missing" (.str "x")] =
      .failure .pathNotFound :=
  remove_replace_missing_path_fail (.obj (.cons "name" (.str "John") .nil)) "/missing"
    (.str "x") (by decide)

/--
C6: test operation semantics.  When the path resolves to a value w, the
test operation fails with AssertionFailed exactly when w differs from
the operation value, and on a match the call succeeds with the document
unchanged.
-/
theorem test_assertion_semantics (D : Json) (p : String) (v w : Json)
    (h : getValueByPointer D p = some w) :
    (w ≠ v → safePatch D [.test p v] = .failure .assertionFailed) ∧
    (w = v → safePatch D [.test p v] = .success D) := by
  have hres : resolveSegs (parsePointer p) D = some w := h
  constructor
  · intro hne
    simp [safePatch, patch_eq_patchLoop, patchLoop, patchStep, applyOperation, hres, hne]
  · intro heq
    subst heq
    simp [safePatch, patch_eq_patchLoop, patchLoop, patchStep, applyOperation, hres]

/--
Witness for C6 at the document of the spec example: testing name against
Jane fails with AssertionFailed, testing it against John succeeds and
leaves the document unchanged.
-/
theorem test_assertion_semantics_witness :
    safePatch (.obj (.cons "name" (.str "John") .nil)) [.test "/name" (.str "Jane")] =
      .failure .assertionFailed ∧
    safePatch (.obj (.cons "name" (.str "John") .nil)) [.test "/name" (.str "John")] =
      .success (.obj (.cons "name" (.str "John") .nil)) := by
  have h1 := test_assertion_semantics (.obj (.cons "name" (.str "John") .nil)) "/name"
    (.str "Jane") (.str "John") (by decide)
  have h2 := test_assertion_semantics (.obj (.cons "name" (.str "John") .nil)) "/name"
    (.str "John") (.str "John") (by decide)
  exact ⟨h1.1 (by decide), h2.2 rfl⟩

/--
C10: the non-standard Get tag.  The apply loop does not special-case a
Get operation (its string-add override matches only add operations), and
the generic application treats Get as a read-only no-op: when the path
resolves, the call succeeds and returns the document unchanged.
-/
theorem get_operation_noop (D : Json) (p : String) (v w : Json)
    (h : getValueByPointer D p = some w) :
    patchStep D (.get p v) = applyOperation D (.get p v) ∧
    safePatch D [.get p v] = .success D := by
  have hres : resolveSegs (parsePointer p) D = some w := h
  exact ⟨rfl, by simp [safePatch, patch_eq_patchLoop, patchLoop, patchStep, applyOperation, hres]⟩

/--
Witness for C10: a Get operation on a resolving path leaves the concrete
document unchanged and does not fail.
-/
theorem get_operation_noop_witness :
    safePatch (.obj (.cons "name" (.str "John") .nil)) [.get "/name" .null] =
      .success (.obj (.cons "name" (.str "John") .nil)) :=
  (get_operation_noop (.obj (.cons "name" (.str "John") .nil)) "/name" .null
    (.str "John") (by decide)).2

/--
Counterexample for C1: on the empty object, an add of the string value x
at the non-resolving path fails with PathNotFound instead of writing the
literal value verbatim, because the loop rewrites every string-valued add
into a replace, and replace requires the path to exist.
-/
theorem add_string_missing_path_counterexample :
    safePatch (.obj .nil) [.add "/a" (.str "x")] = .failure .pathNotFound ∧
    safePatch (.obj .nil) [.add "/a" (.str "x")] ≠
      .success (.obj (.cons "a" (.str "x") .nil)) :=
  ⟨by decide, by decide⟩

/--
C1 (amended): string-append override.  For an add operation whose value
is the string v, if the path currently resolves to a string s the result
holds s concatenated with v at that path; if it resolves to a non-string
value the literal string v replaces that value verbatim; and if the path
does not resolve at all the call fails with PathNotFound (the
internally-issued replace finds no location), rather than writing the
value.
-/
theorem add_string_override (D : Json) (p v : String) :
    match getValueByPointer D p with
    | some w =>
        ∃ D', patch D [.add p (.str v)] = .ok D' ∧
          getValueByPointer D' p =
            some (match w with | .str s => .str (s ++ v) | _ => .str v)
    | none => patch D [.add p (.str v)] = .error .pathNotFound := by
  cases h : getValueByPointer D p with
  | some w =>
      have hres : resolveSegs (parsePointer p) D = some w := h
      simp only []
      cases w with
      | str s =>
          obtain ⟨d', hrep, hres'⟩ :=
            replaceSegs_of_resolve (parsePointer p) D _ (.str (s ++ v)) hres
          exact ⟨d', by
            simp [patch_eq_patchLoop, patchLoop, patchStep, getValueByPointer, hres,
              applyOperation, hrep], hres'⟩
      | null =>
          obtain ⟨d', hrep, hres'⟩ :=
            replaceSegs_of_resolve (parsePointer p) D _ (.str v) hres
          exact ⟨d', by
            simp [patch_eq_patchLoop, patchLoop, patchStep, getValueByPointer, hres,
              applyOperation, hrep], hres'⟩
      | bool b =>
          obtain ⟨d', hrep, hres'⟩ :=
            replaceSegs_of_resolve (parsePointer p) D _ (.str v) hres
          exact ⟨d', by
            simp [patch_eq_patchLoop, patchLoop, patchStep, getValueByPointer, hres,
              applyOperation, hrep], hres'⟩
      | num n =>
          obtain ⟨d', hrep, hres'⟩ :=
            replaceSegs_of_resolve (parsePointer p) D _ (.str v) hres
          exact ⟨d', by
            simp [patch_eq_patchLoop, patchLoop, patchStep, getValueByPointer, hres,
              applyOperation, hrep], hres'⟩
      | arr xs =>
          obtain ⟨d', hrep, hres'⟩ :=
            replaceSegs_of_resolve (parsePointer p) D _ (.str v) hres
          exact ⟨d', by
            simp [patch_eq_patchLoop, patchLoop, patchStep, getValueByPointer, hres,
              applyOperation, hrep], hres'⟩
      | obj fs =>
          obtain ⟨d', hrep, hres'⟩ :=
            replaceSegs_of_resolve (parsePointer p) D _ (.str v) hres
          exact ⟨d', by
            simp [patch_eq_patchLoop, patchLoop, patchStep, getValueByPointer, hres,
              applyOperation, hrep], hres'⟩
  | none =>
      have hres : resolveSegs (parsePointer p) D = none := h
      have hrp := replaceSegs_of_resolve_none (parsePointer p) D (.str v) hres
      simp only []
      simp [patch_eq_patchLoop, patchLoop, patchStep, getValueByPointer, hres,
        applyOperation, hrp]

/--
C4: sequential left-to-right composition of string adds.  When the path
currently resolves to the string s, applying a list of string adds at
that path succeeds and leaves at the path the concatenation of s with
all the added strings in order: n sequential adds perform n
concatenations.
-/
theorem sequential_string_adds (vs : List String) :
    ∀ (D : Json) (p s : String), getValueByPointer D p = some (.str s) →
      ∃ D', patch D (vs.map fun v => JsonPatchOperation.add p (.str v)) = .ok D' ∧
        getValueByPointer D' p =
          some (.str (s ++ vs.foldr (fun a b => a ++ b) "")) := by
  induction vs with
  | nil =>
      intro D p s h
      refine ⟨D, by simp [patch_eq_patchLoop, patchLoop], ?_⟩
      simpa [String.append_empty] using h
  | cons v rest ih =>
      intro D p s h
      have hres0 : resolveSegs (parsePointer p) D = some (.str s) := h
      obtain ⟨d', hrep, hres'⟩ :=
        replaceSegs_of_resolve (parsePointer p) D _ (.str (s ++ v)) hres0
      obtain ⟨D', hp, hv⟩ := ih d' p (s ++ v) hres'
      refine ⟨D', ?_, ?_⟩
      · rw [patch_eq_patchLoop] at hp ⊢
        simp only [List.map_cons, patchLoop, patchStep, getValueByPointer, hres0,
          applyOperation, hrep]
        exact hp
      · rw [hv, String.append_assoc]
        simp [List.foldr_cons]

/--
Witness for C4 at the documents of the spec example: starting from the
object holding text a, adding b, then c, then de yields the object
holding text abcde.
-/
theorem sequential_string_adds_witness :
    safePatch (.obj (.cons "text" (.str "a") .nil))
        [.add "/text" (.str "b"), .add "/text" (.str "c"), .add "/text" (.str "de")] =
      .success (.obj (.cons "text" (.str "abcde") .nil)) := by
  obtain ⟨D', hp, hv⟩ := sequential_string_adds ["b", "c", "de"]
    (.obj (.cons "text" (.str "a") .nil)) "/text" "a" (by decide)
  have hmap : (["b", "c", "de"].map fun v => JsonPatchOperation.add "/text" (Json.str v)) =
      [.add "/text" (.str "b"), .add "/text" (.str "c"), .add "/text" (.str "de")] := rfl
  rw [hmap] at hp
  have hs : safePatch (.obj (.cons "text" (.str "a") .nil))
      [.add "/text" (.str "b"), .add "/text" (.str "c"), .add "/text" (.str "de")] =
      .success D' := by simp [safePatch, hp]
  have h0 : safePatch (.obj (.cons "text" (.str "a") .nil))
      [.add "/text" (.str "b"), .add "/text" (.str "c"), .add "/text" (.str "de")] =
      .success (.obj (.cons "text" (.str "abcde") .nil)) := by decide
  exact h0

/--
Counterexample for C7: on the document holding the array of numbers 1
and 2 under key a, a string-valued add at index 0 is rewritten by the
loop into a replace, so it overwrites the element (yielding the
two-element array x, 2) instead of inserting with a shift (which would
yield the three-element array x, 1, 2).
-/
theorem add_string_array_counterexample :
    safePatch (.obj (.cons "a" (.arr (.cons (.num 1) (.cons (.num 2) .nil))) .nil))
        [.add "/a/0" (.str "x")] =
      .success (.obj (.cons "a" (.arr (.cons (.str "x") (.cons (.num 2) .nil))) .nil)) ∧
    safePatch (.obj (.cons "a" (.arr (.cons (.num 1) (.cons (.num 2) .nil))) .nil))
        [.add "/a/0" (.str "x")] ≠
      .success (.obj (.cons "a"
        (.arr (.cons (.str "x") (.cons (.num 1) (.cons (.num 2) .nil)))) .nil)) :=
  ⟨by decide, by decide⟩

/--
C7 (amended): array insertion for add.  For every document and every
pointer whose prefix resolves to an array anywhere in the document (at
the root, nested, or beside other keys), an add with a non-string value
at an in-range final index (index up to and including the length)
inserts the value at that index and shifts later elements, rebuilding
the rest of the document around the grown array; an add whose value is
a string never takes this structural-insert path, because the loop
rewrites it into a replace of the currently-addressed element.
-/
theorem add_nonstring_array_insert (D : Json) (p seg : String) (segs : List String)
    (i : Nat) (xs ys : JsonList) (v : Json)
    (hp : parsePointer p = segs ++ [seg])
    (hres : resolveSegs segs D = some (.arr xs))
    (hi : segToNat seg = some i)
    (hins : xs.insertIdx i v = some ys)
    (hv : v.isStr = false) :
    ∃ D', patch D [.add p v] = .ok D' ∧ safePatch D [.add p v] = .success D' ∧
      replaceSegs segs (.arr ys) D = some D' ∧ resolveSegs segs D' = some (.arr ys) := by
  have hstep : ∀ t : Json, patchStep t (.add p v) = applyOperation t (.add p v) := by
    intro t
    cases v with
    | str s => exact absurd hv (by simp [Json.isStr])
    | null => rfl
    | bool b => rfl
    | num n => rfl
    | arr a => rfl
    | obj o => rfl
  have hone : addSegs [seg] v (.arr xs) = some (.arr ys) := by
    simp [addSegs, hi, hins]
  have hdeep := addSegs_deep segs D (.arr xs) seg [] v hres
  rw [hone] at hdeep
  obtain ⟨D', hrep, hres'⟩ := replaceSegs_of_resolve segs D (.arr xs) (.arr ys) hres
  have hadd : addSegs (parsePointer p) v D = some D' := by
    rw [hp, hdeep]
    simpa using hrep
  have hpatch : patch D [.add p v] = .ok D' := by
    rw [patch_eq_patchLoop]
    simp [patchLoop, hstep, applyOperation, hadd]
  exact ⟨D', hpatch, by simp [safePatch, hpatch], hrep, hres'⟩

/--
Witness for C7: adding the number 3 at index 2 of the two-element array
under key a (index equal to the length) appends it inside the object,
and adding the boolean true at index 1 of a root-level two-element
array inserts it and shifts the later element.
-/
theorem add_nonstring_array_insert_witness :
    safePatch (.obj (.cons "a" (.arr (.cons (.num 1) (.cons (.num 2) .nil))) .nil))
        [.add "/a/2" (.num 3)] =
      .success (.obj (.cons "a"
        (.arr (.cons (.num 1) (.cons (.num 2) (.cons (.num 3) .nil)))) .nil)) ∧
    safePatch (.arr (.cons (.num 1) (.cons (.num 2) .nil))) [.add "/1" (.bool true)] =
      .success (.arr (.cons (.num 1) (.cons (.bool true) (.cons (.num 2) .nil)))) := by
  obtain ⟨D1, h11, h12, h13, h14⟩ := add_nonstring_array_insert
    (.obj (.cons "a" (.arr (.cons (.num 1) (.cons (.num 2) .nil))) .nil)) "/a/2" "2" ["a"] 2
    (.cons (.num 1) (.cons (.num 2) .nil))
    (.cons (.num 1) (.cons (.num 2) (.cons (.num 3) .nil)))
    (.num 3) (by decide) (by decide) (by decide) (by decide) (by decide)
  obtain ⟨D2, h21, h22, h23, h24⟩ := add_nonstring_array_insert
    (.arr (.cons (.num 1) (.cons (.num 2) .nil))) "/1" "1" [] 1
    (.cons (.num 1) (.cons (.num 2) .nil))
    (.cons (.num 1) (.cons (.bool true) (.cons (.num 2) .nil)))
    (.bool true) (by decide) (by decide) (by decide) (by decide) (by decide)
  exact ⟨by decide, by decide⟩

/--
Counterexample for C8: on the array of numbers 1 and 2, moving index 0
to index 1 yields the array 2, 1 (remove first, then insert), while
copying index 0 to index 1 and then removing index 0 yields the array
1, 2 (insert first, then remove), so the two are not equivalent even
though the two pointers differ.
-/
theorem move_copy_remove_counterexample :
    safePatch (.arr (.cons (.num 1) (.cons (.num 2) .nil))) [.move "/0" "/1"] =
      .success (.arr (.cons (.num 2) (.cons (.num 1) .nil))) ∧
    safePatch (.arr (.cons (.num 1) (.cons (.num 2) .nil))) [.copy "/0" "/1", .remove "/0"] =
      .success (.arr (.cons (.num 1) (.cons (.num 2) .nil))) ∧
    safePatch (.arr (.cons (.num 1) (.cons (.num 2) .nil))) [.move "/0" "/1"] ≠
      safePatch (.arr (.cons (.num 1) (.cons (.num 2) .nil))) [.copy "/0" "/1", .remove "/0"] :=
  ⟨by decide, by decide, by decide⟩

/--
C8 (amended): move versus copy-then-remove.  On an object document, for
distinct top-level keys (the source key existing), a single move is
equivalent to a copy followed by a remove of the source; the equivalence
fails for array indices, where move removes before inserting while
copy-then-remove inserts before removing.
-/
theorem move_eq_copy_then_remove_obj (fs : JsonFields) (f t kf kt : String) (w : Json)
    (hf : parsePointer f = [kf]) (ht : parsePointer t = [kt]) (hne : kf ≠ kt)
    (hw : fs.lookupKey kf = some w) :
    patch (.obj fs) [.move f t] = patch (.obj fs) [.copy f t, .remove f] := by
  have hlu : (fs.upsert kt w).lookupKey kf = some w := by
    rw [JsonFields.lookupKey_upsert_other fs kf kt w hne]; exact hw
  simp [patch_eq_patchLoop, patchLoop, patchStep, applyOperation, hf, ht, resolveSegs,
    removeSegs, addSegs, hw, hlu, JsonFields.removeKey_upsert_comm fs kf kt w hne]

/--
Witness for C8: on the object with keys a and b, moving a to c equals
copying a to c and then removing a.
-/
theorem move_eq_copy_then_remove_obj_witness :
    patch (.obj (.cons "a" (.num 1) (.cons "b" (.num 2) .nil))) [.move "/a" "/c"] =
      patch (.obj (.cons "a" (.num 1) (.cons "b" (.num 2) .nil))) [.copy "/a" "/c", .remove "/a"] :=
  move_eq_copy_then_remove_obj (.cons "a" (.num 1) (.cons "b" (.num 2) .nil)) "/a" "/c" "a" "c"
    (.num 1) (by decide) (by decide) (by decide) (by decide)
